import Mathlib

/-!
Verification of the dx-collection library (a generic keyed-collection store
with single-selection bookkeeping and per-element access handles).

The development shallowly embeds the parts of the code that the verified
properties are about:

* the error taxonomy of src/error.rs (`CollectionError`);
* the `Vec` adapter of src/implementations/vec.rs (`VecC`), with the
  backing vector modelled as a `List`;
* the `HashMap` adapter of src/implementations/hashmap.rs (`HMapC`), with
  the standard hash map modelled as an association list read as a finite
  map (first entry for a key wins);
* the store of src/collection_store.rs, instantiated at the `Vec` adapter
  (`VecStore`) and at the `HashMap` adapter (`HMStore`), each with an
  operation type describing its public mutating surface;
* the element handle of src/collection_item.rs (`CollectionItem`), whose
  panicking access paths are modelled with `Except`, the error value
  standing for the panic;
* the `CircularBuffer` example adapter of examples/lib/custom_collection.rs.

Machine integers (`usize`) are modelled as `Nat`; all arithmetic in the
embedded code is index arithmetic that cannot overflow on the inputs the
code guards for.
-/

namespace DxCollection

/-- Error taxonomy of src/error.rs (`CollectionError`). -/
inductive CollectionError where
  | keyNotFound
  | outOfBounds (index : Nat) (len : Nat)
  | emptyCollection
  | invalidAccess (reason : String)
  | borrowError
  | borrowMutError
deriving DecidableEq, Repr

/-! ### The Vec adapter (src/implementations/vec.rs)

`Vec<T>` is modelled as `List α`; `usize` keys as `Nat`. -/

namespace VecC

/-- Embeds `Vec::get` via slice `get`: `Some` iff the index is in bounds. -/
def get (l : List α) (k : Nat) : Option α := l[k]?

/-- Embeds `Vec::set`: updates in place only when `key < len`, returns whether it did. -/
def set (l : List α) (k : Nat) (v : α) : Bool × List α :=
  if k < l.length then (true, l.set k v) else (false, l)

/-- Embeds `Vec::insert`: append at `key == len`, replace (returning the old value)
at `key < len`, no-op returning `None` beyond. -/
def insert (l : List α) (k : Nat) (v : α) : Option α × List α :=
  if k = l.length then (none, l ++ [v])
  else if k < l.length then (l[k]?, l.set k v)
  else (none, l)

/-- Embeds `Vec::remove`: removes the element at `key` (shifting later elements
down) when in bounds. -/
def remove (l : List α) (k : Nat) : Option α × List α :=
  if k < l.length then (l[k]?, l.eraseIdx k) else (none, l)

/-- Embeds `Vec::keys`: `(0..len)`. -/
def keys (l : List α) : List Nat := List.range l.length

/-- Embeds `Vec::push` of the `SequentialCollection` impl. -/
def push (l : List α) (v : α) : List α := l ++ [v]

/-- Embeds `Vec::pop` of the `SequentialCollection` impl: removes and returns the
last element. -/
def pop (l : List α) : Option α × List α :=
  match l.getLast? with
  | none => (none, l)
  | some v => (some v, l.dropLast)

/-- Embeds `Vec::swap` of the `SequentialCollection` impl: exchanges two in-bounds
positions, silently does nothing otherwise. -/
def swap (l : List α) (k1 k2 : Nat) : List α :=
  if k1 < l.length ∧ k2 < l.length then
    match l[k1]?, l[k2]? with
    | some v1, some v2 => (l.set k1 v2).set k2 v1
    | _, _ => l
  else l

/-- Embeds `Collection::extend` default implementation: repeated `insert`. -/
def extend (l : List α) (ps : List (Nat × α)) : List α :=
  ps.foldl (fun acc p => (VecC.insert acc p.1 p.2).2) l

end VecC

/-! ### The HashMap adapter (src/implementations/hashmap.rs)

The standard hash map is modelled as an association list interpreted as a
finite map: `get` returns the first entry with the given key. -/

namespace HMapC

variable {κ ν : Type} [DecidableEq κ]

/-- Embeds `HashMap::get`. -/
def get (m : List (κ × ν)) (k : κ) : Option ν :=
  (m.find? (fun p => decide (p.1 = k))).map Prod.snd

/-- Embeds `HashMap::set` via the entry API: replaces the value only when the key
is occupied, returns whether it did; never inserts. -/
def set (m : List (κ × ν)) (k : κ) (v : ν) : Bool × List (κ × ν) :=
  if (get m k).isSome then
    (true, m.map (fun p => if p.1 = k then (k, v) else p))
  else (false, m)

/-- Embeds `HashMap::insert`: replace returning the old value, or add the new
binding. -/
def insert (m : List (κ × ν)) (k : κ) (v : ν) : Option ν × List (κ × ν) :=
  match get m k with
  | some old => (some old, m.map (fun p => if p.1 = k then (k, v) else p))
  | none => (none, m ++ [(k, v)])

/-- Embeds `HashMap::remove`: drops the binding for `k` (if any) and returns it. -/
def remove (m : List (κ × ν)) (k : κ) : Option ν × List (κ × ν) :=
  (get m k, m.filter (fun p => decide (p.1 ≠ k)))

/-- Embeds `Collection::extend` default implementation: repeated `insert`. -/
def extend (m : List (κ × ν)) (ps : List (κ × ν)) : List (κ × ν) :=
  ps.foldl (fun acc p => (HMapC.insert acc p.1 p.2).2) m

end HMapC

/-! ### The store over the Vec adapter (src/collection_store.rs)

`CollectionStore<Vec<T>>` owns the container plus the optional selected
key. -/

structure VecStore (α : Type) where
  items : List α
  selected_key : Option Nat
deriving DecidableEq, Repr

namespace VecStore

/-- Embeds `CollectionStore::new`: no initial selection. -/
def new (l : List α) : VecStore α := ⟨l, none⟩

/-- Embeds `CollectionStore::contains_key`: `get(key).is_some()`. -/
def contains_key (s : VecStore α) (k : Nat) : Bool := (VecC.get s.items k).isSome

/-- Embeds `CollectionStore::select`: selects iff the key exists, else
`KeyNotFound`. -/
def select (s : VecStore α) (k : Nat) : Except CollectionError Unit × VecStore α :=
  if s.contains_key k then (Except.ok (), { s with selected_key := some k })
  else (Except.error CollectionError.keyNotFound, s)

/-- Embeds `CollectionStore::insert`: delegates to the adapter. -/
def insert (s : VecStore α) (k : Nat) (v : α) : Option α × VecStore α :=
  ((VecC.insert s.items k v).1, { s with items := (VecC.insert s.items k v).2 })

/-- Embeds `CollectionStore::set`: delegates to the adapter. -/
def set (s : VecStore α) (k : Nat) (v : α) : VecStore α :=
  { s with items := (VecC.set s.items k v).2 }

/-- Embeds `CollectionStore::remove`: clears the selection first when the removed
key is the selected one, then delegates to the adapter. -/
def remove (s : VecStore α) (k : Nat) : Option α × VecStore α :=
  let s1 := if s.selected_key = some k then { s with selected_key := none } else s
  ((VecC.remove s1.items k).1, { s1 with items := (VecC.remove s1.items k).2 })

/-- Embeds `CollectionStore::clear`: clears the container, then the selection. -/
def clear (s : VecStore α) : VecStore α :=
  { items := [], selected_key := none }

/-- Embeds `CollectionStore::clear_selection`. -/
def clear_selection (s : VecStore α) : VecStore α :=
  { s with selected_key := none }

/-- Embeds `CollectionStore::push`: pure delegation. -/
def push (s : VecStore α) (v : α) : VecStore α :=
  { s with items := VecC.push s.items v }

/-- Embeds `CollectionStore::pop`: pure delegation (the selection field is not
touched). -/
def pop (s : VecStore α) : Option α × VecStore α :=
  ((VecC.pop s.items).1, { s with items := (VecC.pop s.items).2 })

/-- Embeds `CollectionStore::swap`: both keys must exist, else `KeyNotFound` and
nothing changes. -/
def swap (s : VecStore α) (k1 k2 : Nat) : Except CollectionError Unit × VecStore α :=
  if s.contains_key k1 && s.contains_key k2 then
    (Except.ok (), { s with items := VecC.swap s.items k1 k2 })
  else (Except.error CollectionError.keyNotFound, s)

/-- Embeds `CollectionStore::extend`: pure delegation. -/
def extend (s : VecStore α) (ps : List (Nat × α)) : VecStore α :=
  { s with items := VecC.extend s.items ps }

end VecStore

/-- The public mutating operations of a `CollectionStore<Vec<T>>`. -/
inductive StoreOp (α : Type) where
  | select (k : Nat)
  | insert (k : Nat) (v : α)
  | set (k : Nat) (v : α)
  | remove (k : Nat)
  | clear
  | push (v : α)
  | pop
  | swap (k1 k2 : Nat)
  | extend (ps : List (Nat × α))
deriving DecidableEq

/-- One public store operation, as a state transformer (results of fallible
operations are discarded). -/
def VecStore.applyOp (s : VecStore α) : StoreOp α → VecStore α
  | StoreOp.select k => (s.select k).2
  | StoreOp.insert k v => (s.insert k v).2
  | StoreOp.set k v => s.set k v
  | StoreOp.remove k => (s.remove k).2
  | StoreOp.clear => s.clear
  | StoreOp.push v => s.push v
  | StoreOp.pop => (s.pop).2
  | StoreOp.swap k1 k2 => (s.swap k1 k2).2
  | StoreOp.extend ps => s.extend ps

/-- The selection validity invariant: a selected key must exist in the
container. -/
def VecStore.selValid (s : VecStore α) : Bool :=
  match s.selected_key with
  | none => true
  | some k => (VecC.get s.items k).isSome

/-- Operations that never touch existing keys from under the selection:
everything except `pop` and `remove`. -/
def StoreOp.selSafe : StoreOp α → Bool
  | StoreOp.pop => false
  | StoreOp.remove _ => false
  | _ => true

/-! ### The store over the HashMap adapter -/

structure HMStore (κ ν : Type) where
  items : List (κ × ν)
  selected_key : Option κ

namespace HMStore

variable {κ ν : Type} [DecidableEq κ]

def new (m : List (κ × ν)) : HMStore κ ν := ⟨m, none⟩

def contains_key (s : HMStore κ ν) (k : κ) : Bool := (HMapC.get s.items k).isSome

def select (s : HMStore κ ν) (k : κ) : Except CollectionError Unit × HMStore κ ν :=
  if s.contains_key k then (Except.ok (), { s with selected_key := some k })
  else (Except.error CollectionError.keyNotFound, s)

def insert (s : HMStore κ ν) (k : κ) (v : ν) : Option ν × HMStore κ ν :=
  ((HMapC.insert s.items k v).1, { s with items := (HMapC.insert s.items k v).2 })

def set (s : HMStore κ ν) (k : κ) (v : ν) : HMStore κ ν :=
  { s with items := (HMapC.set s.items k v).2 }

def remove (s : HMStore κ ν) (k : κ) : Option ν × HMStore κ ν :=
  let s1 := if s.selected_key = some k then { s with selected_key := none } else s
  ((HMapC.remove s1.items k).1, { s1 with items := (HMapC.remove s1.items k).2 })

def clear (s : HMStore κ ν) : HMStore κ ν :=
  { items := [], selected_key := none }

def extend (s : HMStore κ ν) (ps : List (κ × ν)) : HMStore κ ν :=
  { s with items := HMapC.extend s.items ps }

/-- The selection validity invariant for the HashMap-backed store. -/
def selValid (s : HMStore κ ν) : Bool :=
  match s.selected_key with
  | none => true
  | some k => (HMapC.get s.items k).isSome

end HMStore

/-- The public mutating operations of a `CollectionStore<HashMap<K, V>>`
(the sequential extension does not apply to maps). -/
inductive HOp (κ ν : Type) where
  | select (k : κ)
  | insert (k : κ) (v : ν)
  | set (k : κ) (v : ν)
  | remove (k : κ)
  | clear
  | extend (ps : List (κ × ν))

def HMStore.applyOp [DecidableEq κ] (s : HMStore κ ν) : HOp κ ν → HMStore κ ν
  | HOp.select k => (s.select k).2
  | HOp.insert k v => (s.insert k v).2
  | HOp.set k v => s.set k v
  | HOp.remove k => (s.remove k).2
  | HOp.clear => s.clear
  | HOp.extend ps => s.extend ps

/-! ### The element handle (src/collection_item.rs)

`try_read_unchecked` / `try_write_unchecked` resolve the handle's key
against the current container and panic when it no longer exists.  The
panic (a diverging computation) is modelled as the `Except.error` case. -/

/-- The panic message of `CollectionItem::try_read_unchecked` and
`try_write_unchecked`. -/
def panicMsg : String :=
  "Attempted to access a key that does not exist in the collection. This is a bug."

namespace CollectionItem

/-- Embeds `CollectionItem::try_read_unchecked` over the Vec adapter: resolve the
key against the current container, panic if absent. -/
def try_read (l : List α) (k : Nat) : Except String α :=
  match VecC.get l k with
  | some v => Except.ok v
  | none => Except.error panicMsg

/-- Embeds `CollectionItem::try_write_unchecked` over the Vec adapter: resolve the
key to the element `get_mut` yields, panic if absent. -/
def try_write (l : List α) (k : Nat) : Except String α :=
  match VecC.get l k with
  | some v => Except.ok v
  | none => Except.error panicMsg

end CollectionItem

/-! ### The ring-buffer example adapter (examples/lib/custom_collection.rs) -/

structure CircularBuffer (α : Type) where
  data : List α
  capacity : Nat
  start : Nat
  len : Nat
deriving DecidableEq, Repr

namespace CircularBuffer

/-- Embeds `CircularBuffer::new`. -/
def new (capacity : Nat) : CircularBuffer α :=
  { data := [], capacity := capacity, start := 0, len := 0 }

/-- Embeds `CircularBuffer::real_index`: logical index to physical index in the
backing vector. -/
def real_index (b : CircularBuffer α) (logical_index : Nat) : Option Nat :=
  if logical_index ≥ b.len then none
  else some ((b.start + logical_index) % b.data.length)

/-- Embeds `CircularBuffer::get`. -/
def get (b : CircularBuffer α) (k : Nat) : Option α :=
  (b.real_index k).bind (fun idx => b.data[idx]?)

/-- Embeds `CircularBuffer::set`. -/
def set (b : CircularBuffer α) (k : Nat) (v : α) : Bool × CircularBuffer α :=
  match b.real_index k with
  | some idx => (true, { b with data := b.data.set idx v })
  | none => (false, b)

/-- Embeds `CircularBuffer::insert`: replaces in place at an existing logical
key. -/
def insert (b : CircularBuffer α) (k : Nat) (v : α) : Option α × CircularBuffer α :=
  match b.real_index k with
  | some idx => (b.data[idx]?, { b with data := b.data.set idx v })
  | none => (none, b)

/-- Embeds `CircularBuffer::remove`: physically removes the resolved slot from the
backing vector, fixing up `start` when the removed physical index was below
it, and decrements `len`. -/
def remove (b : CircularBuffer α) (k : Nat) : Option α × CircularBuffer α :=
  if k ≥ b.len then (none, b)
  else
    match b.real_index k with
    | none => (none, b)
    | some ri =>
      (b.data[ri]?,
       { b with
         data := b.data.eraseIdx ri,
         start := if ri < b.start then b.start - 1 else b.start,
         len := b.len - 1 })

/-- Embeds `CircularBuffer::push` of the `SequentialCollection` impl: append while
the backing vector is below capacity, else overwrite the slot at
`(start + len) % capacity` and advance `start`. -/
def push (b : CircularBuffer α) (v : α) : CircularBuffer α :=
  if b.data.length < b.capacity then
    { b with data := b.data ++ [v], len := b.len + 1 }
  else
    let write_idx := (b.start + b.len) % b.capacity
    { b with
      data := if write_idx < b.data.length then b.data.set write_idx v else b.data,
      start := (b.start + 1) % b.capacity }

/-- Embeds `CircularBuffer::pop` of the `SequentialCollection` impl. -/
def pop (b : CircularBuffer α) : Option α × CircularBuffer α :=
  if b.len = 0 then (none, b)
  else
    let len1 := b.len - 1
    let idx := (b.start + len1) % b.data.length
    (b.data[idx]?, { b with data := b.data.eraseIdx idx, len := len1 })

/-- The observable logical contents of the buffer: `get 0 .. get (len-1)`. -/
def logicalSeq (b : CircularBuffer α) : List (Option α) :=
  (List.range b.len).map (fun i => b.get i)

end CircularBuffer

/-! ## Helper lemmas -/

/-- Vec-adapter `get` succeeds exactly on in-bounds keys. -/
theorem VecC.isSome_get_iff {α : Type} {l : List α} {k : Nat} :
    (VecC.get l k).isSome = true ↔ k < l.length := by
  unfold VecC.get
  rcases Nat.lt_or_ge k l.length with h | h
  · simp [List.getElem?_eq_getElem h, h]
  · simp [List.getElem?_eq_none h, Nat.not_lt.mpr h]

/-! ## C3: removing the selected key clears the selection -/

/-- C3: `remove(k)` clears the selection (before the contract-level remove
runs) exactly when `k` is the selected key, leaves the selection untouched
otherwise, and returns and applies the adapter-level removal. -/
theorem remove_selected_clears_selection {α : Type} (s : VecStore α) (k : Nat) :
    ((s.remove k).2.selected_key
        = if s.selected_key = some k then none else s.selected_key)
    ∧ (s.remove k).1 = (VecC.remove s.items k).1
    ∧ (s.remove k).2.items = (VecC.remove s.items k).2 := by
  unfold VecStore.remove
  by_cases h : s.selected_key = some k <;> simp [h]

/-! ## C4: select succeeds exactly on present keys -/

/-- C4: `select(k)` returns `Ok` and sets the selected key to `Some k` iff
`k` currently exists in the container; on an absent key it fails with
`KeyNotFound` and leaves the store, in particular the prior selection,
unchanged. -/
theorem select_ok_iff_key_present {α : Type} (s : VecStore α) (k : Nat) :
    (((s.select k).1 = Except.ok () ∧ (s.select k).2.selected_key = some k)
      ↔ (VecC.get s.items k).isSome = true)
    ∧ ((VecC.get s.items k).isSome = false →
        (s.select k).1 = Except.error CollectionError.keyNotFound
        ∧ (s.select k).2 = s) := by
  unfold VecStore.select VecStore.contains_key
  constructor
  · constructor
    · intro h
      by_contra hc
      rw [Bool.not_eq_true] at hc
      simp [hc] at h
    · intro h
      simp [h]
  · intro h
    simp [h]

/-- Witness for C4 at a concrete store. -/
theorem select_ok_iff_key_present_witness :
    ((VecStore.new [10, 20, 30]).select 1).2.selected_key = some 1
    ∧ ((VecStore.new [10, 20, 30]).select 7).1
        = Except.error CollectionError.keyNotFound := by
  constructor
  · exact ((select_ok_iff_key_present (VecStore.new [10, 20, 30]) 1).1.mpr (by decide)).2
  · exact ((select_ok_iff_key_present (VecStore.new [10, 20, 30]) 7).2 (by decide)).1

/-! ## C2: pop and the selection -/

/-- C2 counterexample: over the store `[10, 20]` with index 1 selected,
`pop` removes the selected element, yet the selection stays `Some 1`
(now dangling) instead of being cleared to `None`. -/
theorem pop_selected_not_cleared_cx :
    ((((VecStore.new [10, 20]).select 1).2.pop).2.selected_key = some 1)
    ∧ VecC.get ((((VecStore.new [10, 20]).select 1).2.pop).2.items) 1 = none := by
  decide

/-- C2 (amended): `pop` is pure delegation — the selection field is left
unchanged in every case, including when the popped element was the current
selection, which is then left dangling rather than cleared. -/
theorem pop_leaves_selection_unchanged {α : Type} (s : VecStore α) :
    (s.pop).2.selected_key = s.selected_key
    ∧ (s.pop).1 = (VecC.pop s.items).1
    ∧ (s.pop).2.items = (VecC.pop s.items).2 := by
  unfold VecStore.pop
  exact ⟨rfl, rfl, rfl⟩

/-! ## C7: Vec insert trichotomy -/

/-- C7: the Vec adapter's `insert`: at `len` it appends and returns `None`;
below `len` it replaces the element at the key (returning the old value)
and leaves everything else unchanged; beyond `len` it is a no-op returning
`None`. -/
theorem vec_insert_trichotomy {α : Type} (l : List α) (k : Nat) (v : α) :
    VecC.insert l l.length v = (none, l ++ [v])
    ∧ (k < l.length →
        (VecC.insert l k v).1 = l[k]?
        ∧ (VecC.insert l k v).2.length = l.length
        ∧ ((VecC.insert l k v).2)[k]? = some v
        ∧ ∀ j, j ≠ k → ((VecC.insert l k v).2)[j]? = l[j]?)
    ∧ (l.length < k → VecC.insert l k v = (none, l)) := by
  refine ⟨?_, ?_, ?_⟩
  · simp [VecC.insert]
  · intro h
    have hne : k ≠ l.length := Nat.ne_of_lt h
    refine ⟨by simp [VecC.insert, hne, h], by simp [VecC.insert, hne, h], ?_, ?_⟩
    · simp [VecC.insert, hne, h, List.getElem?_set_self h]
    · intro j hj
      simp [VecC.insert, hne, h, List.getElem?_set_ne (Ne.symm hj)]
  · intro h
    have h1 : k ≠ l.length := by omega
    have h2 : ¬ k < l.length := by omega
    simp [VecC.insert, h1, h2]

/-- Witness for C7 at concrete inputs covering all three branches. -/
theorem vec_insert_trichotomy_witness :
    (VecC.insert [1, 2, 3] 1 9).1 = some 2
    ∧ VecC.insert [1, 2, 3] 3 9 = (none, [1, 2, 3, 9])
    ∧ VecC.insert [1, 2, 3] 5 9 = (none, [1, 2, 3]) := by
  refine ⟨?_, ?_, ?_⟩
  · exact (((vec_insert_trichotomy [1, 2, 3] 1 9).2.1 (by decide)).1).trans (by decide)
  · simpa using (vec_insert_trichotomy ([1, 2, 3] : List Nat) 0 9).1
  · exact (vec_insert_trichotomy ([1, 2, 3] : List Nat) 5 9).2.2 (by decide)

/-! ## C9: element handles fail loudly on dangling keys -/

/-- C9: an element handle whose key no longer resolves fails loudly — both
access paths produce the panic outcome (modelled as `Except.error`) rather
than silently yielding a value; when the key exists, the panic branch is
unreachable and both paths yield exactly the element currently stored at
that key, re-resolved at access time (a write to the slot is seen by a
later read, nothing is cached). -/
theorem item_access_panics_on_dangling_key {α : Type} (l : List α) (k : Nat) (v w : α) :
    ((VecC.get l k).isSome = false →
      CollectionItem.try_read l k = Except.error panicMsg
      ∧ CollectionItem.try_write l k = Except.error panicMsg)
    ∧ (VecC.get l k = some v →
        CollectionItem.try_read l k = Except.ok v
        ∧ CollectionItem.try_write l k = Except.ok v)
    ∧ (k < l.length → CollectionItem.try_read ((VecC.set l k w).2) k = Except.ok w) := by
  refine ⟨?_, ?_, ?_⟩
  · intro h
    rcases hg : VecC.get l k with _ | x
    · exact ⟨by simp [CollectionItem.try_read, hg],
        by simp [CollectionItem.try_write, hg]⟩
    · rw [hg] at h
      simp at h
  · intro h
    exact ⟨by simp [CollectionItem.try_read, h], by simp [CollectionItem.try_write, h]⟩
  · intro h
    have hset : VecC.get ((VecC.set l k w).2) k = some w := by
      simp [VecC.set, h, VecC.get, List.getElem?_set_self h]
    simp [CollectionItem.try_read, hset]

/-- Witness for C9: dangling access panics, valid access reads the live
value, and a write is visible to a subsequent read. -/
theorem item_access_panics_witness :
    CollectionItem.try_read ([] : List Nat) 0 = Except.error panicMsg
    ∧ CollectionItem.try_read [7] 0 = Except.ok 7
    ∧ CollectionItem.try_read ((VecC.set [7] 0 9).2) 0 = Except.ok 9 := by
  refine ⟨?_, ?_, ?_⟩
  · exact ((item_access_panics_on_dangling_key ([] : List Nat) 0 0 0).1 (by decide)).1
  · exact ((item_access_panics_on_dangling_key [7] 0 7 0).2.1 (by decide)).1
  · exact (item_access_panics_on_dangling_key [7] 0 7 9).2.2 (by decide)

/-! ## HashMap-adapter helper lemmas -/

/-- Updating the value stored under an occupied key makes `get` return the
new value. -/
theorem HMapC.get_map_update_self {κ ν : Type} [DecidableEq κ]
    (m : List (κ × ν)) (k : κ) (v : ν) (h : (HMapC.get m k).isSome = true) :
    HMapC.get (m.map (fun p => if p.1 = k then (k, v) else p)) k = some v := by
  induction m with
  | nil => simp [HMapC.get] at h
  | cons a t ih =>
    by_cases ha : a.1 = k
    · simp [HMapC.get, ha]
    · have h2 : (HMapC.get t k).isSome = true := by
        unfold HMapC.get at h
        rw [List.find?_cons_of_neg _ (by simp [ha])] at h
        exact h
      have ht := ih h2
      unfold HMapC.get at ht ⊢
      rw [List.map_cons, List.find?_cons_of_neg _ (by simp [ha])]
      exact ht

/-- Updating the value stored under `k` leaves `get` at any other key
unchanged. -/
theorem HMapC.get_map_update_ne {κ ν : Type} [DecidableEq κ]
    (m : List (κ × ν)) (k : κ) (v : ν) (j : κ) (hj : j ≠ k) :
    HMapC.get (m.map (fun p => if p.1 = k then (k, v) else p)) j = HMapC.get m j := by
  induction m with
  | nil => rfl
  | cons a t ih =>
    by_cases ha : a.1 = k
    · have hkj : ¬ k = j := fun h => hj h.symm
      simp only [HMapC.get, List.map_cons, ha, if_pos ha] at ih ⊢
      rw [List.find?_cons_of_neg _ (by simpa using hkj),
        List.find?_cons_of_neg _ (by simp [ha, hkj])]
      exact ih
    · by_cases haj : a.1 = j
      · simp only [HMapC.get, List.map_cons, if_neg ha]
        rw [List.find?_cons_of_pos _ (by simpa using haj),
          List.find?_cons_of_pos _ (by simpa using haj)]
      · simp only [HMapC.get, List.map_cons, if_neg ha]
        rw [List.find?_cons_of_neg _ (by simpa using haj),
          List.find?_cons_of_neg _ (by simpa using haj)]
        exact ih

/-- Removing the binding for `k` leaves `get` at any other key unchanged. -/
theorem HMapC.get_filter_ne {κ ν : Type} [DecidableEq κ]
    (m : List (κ × ν)) (k : κ) (j : κ) (hj : j ≠ k) :
    HMapC.get (m.filter (fun p => decide (p.1 ≠ k))) j = HMapC.get m j := by
  induction m with
  | nil => rfl
  | cons a t ih =>
    by_cases ha : a.1 = k
    · have haj : ¬ a.1 = j := by
        rw [ha]
        exact fun h => hj h.symm
      rw [List.filter_cons_of_neg (by simpa using ha)]
      rw [ih]
      simp only [HMapC.get]
      rw [List.find?_cons_of_neg _ (by simpa using haj)]
    · rw [List.filter_cons_of_pos (by simpa using ha)]
      by_cases haj : a.1 = j
      · simp only [HMapC.get]
        rw [List.find?_cons_of_pos _ (by simpa using haj),
          List.find?_cons_of_pos _ (by simpa using haj)]
      · simp only [HMapC.get]
        rw [List.find?_cons_of_neg _ (by simpa using haj),
          List.find?_cons_of_neg _ (by simpa using haj)]
        exact ih

/-- Lemma: `insert` never makes an existing key unresolvable. -/
theorem HMapC.isSome_get_insert {κ ν : Type} [DecidableEq κ]
    (m : List (κ × ν)) (k : κ) (v : ν) (j : κ)
    (h : (HMapC.get m j).isSome = true) :
    (HMapC.get (HMapC.insert m k v).2 j).isSome = true := by
  unfold HMapC.insert
  rcases hk : HMapC.get m k with _ | old
  · simp only
    unfold HMapC.get at h ⊢
    rw [List.find?_append]
    rcases hf : m.find? (fun p => decide (p.1 = j)) with _ | e
    · rw [hf] at h
      simp at h
    · simp [hf, Option.or]
  · simp only
    by_cases hj : j = k
    · subst hj
      rw [HMapC.get_map_update_self m j v (by simp [hk])]
      rfl
    · rw [HMapC.get_map_update_ne m k v j hj]
      exact h

/-- Lemma: `set` never makes an existing key unresolvable. -/
theorem HMapC.isSome_get_set {κ ν : Type} [DecidableEq κ]
    (m : List (κ × ν)) (k : κ) (v : ν) (j : κ)
    (h : (HMapC.get m j).isSome = true) :
    (HMapC.get (HMapC.set m k v).2 j).isSome = true := by
  unfold HMapC.set
  by_cases hk : (HMapC.get m k).isSome = true
  · simp only [hk, if_pos]
    by_cases hj : j = k
    · subst hj
      rw [HMapC.get_map_update_self m j v hk]
      rfl
    · rw [HMapC.get_map_update_ne m k v j hj]
      exact h
  · simp only [hk]
    simpa using h

/-- Lemma: `extend` (repeated `insert`) never makes an existing key
unresolvable. -/
theorem HMapC.isSome_get_extend {κ ν : Type} [DecidableEq κ]
    (m : List (κ × ν)) (ps : List (κ × ν)) (j : κ)
    (h : (HMapC.get m j).isSome = true) :
    (HMapC.get (HMapC.extend m ps) j).isSome = true := by
  induction ps generalizing m with
  | nil => simpa [HMapC.extend] using h
  | cons p t ih =>
    simp only [HMapC.extend, List.foldl_cons]
    exact ih _ (HMapC.isSome_get_insert m p.1 p.2 j h)

/-! ## Vec-adapter length lemmas -/

/-- Vec `insert` never shrinks the container. -/
theorem VecC.length_le_insert {α : Type} (l : List α) (k : Nat) (v : α) :
    l.length ≤ (VecC.insert l k v).2.length := by
  unfold VecC.insert
  by_cases h1 : k = l.length
  · simp [h1]
  · by_cases h2 : k < l.length <;> simp [h1, h2]

/-- Vec `set` preserves the length. -/
theorem VecC.length_set {α : Type} (l : List α) (k : Nat) (v : α) :
    (VecC.set l k v).2.length = l.length := by
  unfold VecC.set
  split <;> simp

/-- Vec `swap` preserves the length. -/
theorem VecC.length_swap {α : Type} (l : List α) (k1 k2 : Nat) :
    (VecC.swap l k1 k2).length = l.length := by
  unfold VecC.swap
  by_cases hc : k1 < l.length ∧ k2 < l.length
  · simp only [if_pos hc]
    rcases l[k1]? with _ | v1 <;> rcases l[k2]? with _ | v2 <;> simp
  · simp [hc]

/-- Vec `extend` (repeated `insert`) never shrinks the container. -/
theorem VecC.length_le_extend {α : Type} (l : List α) (ps : List (Nat × α)) :
    l.length ≤ (VecC.extend l ps).length := by
  induction ps generalizing l with
  | nil => simp [VecC.extend]
  | cons p t ih =>
    simp only [VecC.extend, List.foldl_cons]
    exact Nat.le_trans (VecC.length_le_insert l p.1 p.2) (ih _)

/-! ## Selection-invariant step lemmas -/

/-- Every Vec-store operation other than `pop` and `remove` preserves the
selection validity invariant. -/
theorem VecStore.selValid_applyOp {α : Type} (s : VecStore α) (op : StoreOp α)
    (h : s.selValid = true) (hop : op.selSafe = true) :
    (s.applyOp op).selValid = true := by
  have hmono : ∀ (l2 : List α), s.items.length ≤ l2.length →
      (VecStore.mk l2 s.selected_key).selValid = true := by
    intro l2 hl
    unfold VecStore.selValid at h ⊢
    rcases hsel : s.selected_key with _ | j
    · rfl
    · rw [hsel] at h
      simp only
      rw [VecC.isSome_get_iff] at h ⊢
      omega
  cases op with
  | select k =>
    by_cases hc : s.contains_key k = true
    · simp only [VecStore.applyOp, VecStore.select, hc, if_pos]
      unfold VecStore.contains_key at hc
      simpa [VecStore.selValid] using hc
    · simp only [VecStore.applyOp, VecStore.select]
      rw [if_neg (by simpa using hc)]
      exact h
  | insert k v => exact hmono _ (VecC.length_le_insert s.items k v)
  | set k v => exact hmono _ (by rw [VecC.length_set])
  | remove k => simp [StoreOp.selSafe] at hop
  | clear => rfl
  | push v => exact hmono _ (by simp [VecC.push])
  | pop => simp [StoreOp.selSafe] at hop
  | swap k1 k2 =>
    simp only [VecStore.applyOp, VecStore.swap]
    split
    · exact hmono _ (by rw [VecC.length_swap])
    · exact h
  | extend ps => exact hmono _ (VecC.length_le_extend s.items ps)

/-- Every HashMap-store operation preserves the selection validity
invariant (including `remove`, since map keys are stable). -/
theorem HMStore.selValid_applyHOp {κ ν : Type} [DecidableEq κ]
    (s : HMStore κ ν) (op : HOp κ ν) (h : s.selValid = true) :
    (s.applyOp op).selValid = true := by
  have hsome : ∀ (m2 : List (κ × ν)),
      (∀ j, (HMapC.get s.items j).isSome = true → (HMapC.get m2 j).isSome = true) →
      (HMStore.mk m2 s.selected_key).selValid = true := by
    intro m2 hm
    unfold HMStore.selValid at h ⊢
    rcases hsel : s.selected_key with _ | j
    · rfl
    · rw [hsel] at h
      exact hm j h
  cases op with
  | select k =>
    by_cases hc : s.contains_key k = true
    · simp only [HMStore.applyOp, HMStore.select, hc, if_pos]
      unfold HMStore.contains_key at hc
      simpa [HMStore.selValid] using hc
    · simp only [HMStore.applyOp, HMStore.select]
      rw [if_neg (by simpa using hc)]
      exact h
  | insert k v => exact hsome _ (fun j hj => HMapC.isSome_get_insert s.items k v j hj)
  | set k v => exact hsome _ (fun j hj => HMapC.isSome_get_set s.items k v j hj)
  | remove k =>
    simp only [HMStore.applyOp, HMStore.remove]
    by_cases hk : s.selected_key = some k
    · simp only [hk, if_pos]
      rfl
    · rw [if_neg hk]
      unfold HMStore.selValid at h ⊢
      rcases hsel : s.selected_key with _ | j
      · rfl
      · rw [hsel] at h
        simp only [HMapC.remove]
        rw [HMapC.get_filter_ne s.items k j (by rw [hsel] at hk; exact fun he => hk (by rw [he]))]
        exact h
  | clear => rfl
  | extend ps => exact hsome _ (fun j hj => HMapC.isSome_get_extend s.items ps j hj)

/-! ## C1: the selection validity invariant -/

/-- The operation sequence used to refute the unrestricted invariant
claim. -/
def popCxOps : List (StoreOp Nat) :=
  [StoreOp.push 10, StoreOp.push 20, StoreOp.select 1, StoreOp.pop]

/-- C1 counterexample: after the public sequence push 10, push 20,
select 1, pop on an initially empty Vec store, the selected key is still
`Some 1` but key 1 no longer exists — the invariant is violated. -/
theorem selection_invariant_cx :
    VecStore.selValid (popCxOps.foldl VecStore.applyOp (VecStore.new [])) = false
    ∧ (popCxOps.foldl VecStore.applyOp (VecStore.new [])).selected_key = some 1
    ∧ VecC.get (popCxOps.foldl VecStore.applyOp (VecStore.new [])).items 1 = none := by
  decide

/-- C1 (amended): the selection validity invariant holds across every
sequence of Vec-store operations drawn from select, insert, set, clear,
push, swap and extend; a `remove` additionally preserves it whenever
nothing is selected or the removed key is the selected one; and for the
HashMap-backed store every operation sequence (its full public surface,
`remove` included) preserves it.  `pop`, and Vec `remove` of a key other
than the selection, can leave the selected key dangling. -/
theorem selection_invariant_amended {α κ ν : Type} [DecidableEq κ]
    (s : VecStore α) (ops : List (StoreOp α)) (k : Nat)
    (t : HMStore κ ν) (hops2 : List (HOp κ ν)) :
    (s.selValid = true → (∀ op ∈ ops, op.selSafe = true) →
      (ops.foldl VecStore.applyOp s).selValid = true)
    ∧ (s.selValid = true → (s.selected_key = none ∨ s.selected_key = some k) →
      ((s.remove k).2).selValid = true)
    ∧ (t.selValid = true → (hops2.foldl HMStore.applyOp t).selValid = true) := by
  refine ⟨?_, ?_, ?_⟩
  · intro h hops
    induction ops generalizing s with
    | nil => simpa using h
    | cons op tl ih =>
      simp only [List.foldl_cons]
      exact ih _ (VecStore.selValid_applyOp s op h (hops op (by simp)))
        (fun o ho => hops o (by simp [ho]))
  · intro h hsel
    unfold VecStore.remove
    rcases hsel with hnone | hsome
    · rw [if_neg (by simp [hnone])]
      unfold VecStore.selValid at h ⊢
      rw [hnone] at h ⊢
    · rw [if_pos hsome]
      rfl
  · intro h
    induction hops2 generalizing t with
    | nil => simpa using h
    | cons op tl ih =>
      simp only [List.foldl_cons]
      exact ih _ (HMStore.selValid_applyHOp t op h)

/-- Witness for C1 (amended) at concrete stores and operation
sequences. -/
theorem selection_invariant_amended_witness :
    VecStore.selValid
      (([StoreOp.push 10, StoreOp.select 0, StoreOp.insert 1 7,
         StoreOp.swap 0 1] : List (StoreOp Nat)).foldl
        VecStore.applyOp (VecStore.new [])) = true
    ∧ VecStore.selValid ((VecStore.new [3, 4]).remove 5).2 = true
    ∧ HMStore.selValid
        (([HOp.insert 1 10, HOp.select 1, HOp.remove 2,
           HOp.set 1 11] : List (HOp Nat Nat)).foldl
          HMStore.applyOp (HMStore.new [])) = true := by
  refine ⟨?_, ?_, ?_⟩
  · exact (selection_invariant_amended (VecStore.new ([] : List Nat))
      [StoreOp.push 10, StoreOp.select 0, StoreOp.insert 1 7, StoreOp.swap 0 1] 0
      (HMStore.new ([] : List (Nat × Nat))) []).1 (by decide) (by decide)
  · exact (selection_invariant_amended (VecStore.new [3, 4]) [] 5
      (HMStore.new ([] : List (Nat × Nat))) []).2.1 (by decide) (Or.inl (by decide))
  · exact (selection_invariant_amended (VecStore.new ([] : List Nat)) [] 0
      (HMStore.new ([] : List (Nat × Nat)))
      [HOp.insert 1 10, HOp.select 1, HOp.remove 2, HOp.set 1 11]).2.2 (by decide)

/-! ## C8: set silently declines on absent keys -/

/-- C8: for both the Vec and the HashMap adapter, `set(k, v)` on an absent
key returns `false` and leaves the container completely unchanged, and on a
present key updates exactly the value at `k` and returns `true`; `set`
never inserts a key (the key set is unchanged) and is total (no error). -/
theorem set_declines_on_absent_key {α κ ν : Type} [DecidableEq κ]
    (l : List α) (k : Nat) (v : α) (m : List (κ × ν)) (km : κ) (vm : ν) :
    ((VecC.get l k).isSome = false → VecC.set l k v = (false, l))
    ∧ ((VecC.get l k).isSome = true →
        (VecC.set l k v).1 = true
        ∧ ((VecC.set l k v).2)[k]? = some v
        ∧ (∀ j, j ≠ k → ((VecC.set l k v).2)[j]? = l[j]?)
        ∧ (VecC.set l k v).2.length = l.length)
    ∧ ((HMapC.get m km).isSome = false → HMapC.set m km vm = (false, m))
    ∧ ((HMapC.get m km).isSome = true →
        (HMapC.set m km vm).1 = true
        ∧ HMapC.get (HMapC.set m km vm).2 km = some vm
        ∧ (∀ j, j ≠ km → HMapC.get (HMapC.set m km vm).2 j = HMapC.get m j)
        ∧ (HMapC.set m km vm).2.map Prod.fst = m.map Prod.fst) := by
  refine ⟨?_, ?_, ?_, ?_⟩
  · intro h
    have hk : ¬ k < l.length := by
      intro hlt
      rw [VecC.isSome_get_iff.mpr hlt] at h
      exact absurd h (by simp)
    simp [VecC.set, hk]
  · intro h
    have hk : k < l.length := VecC.isSome_get_iff.mp h
    refine ⟨by simp [VecC.set, hk], by simp [VecC.set, hk, List.getElem?_set_self hk],
      ?_, by simp [VecC.set, hk]⟩
    intro j hj
    simp [VecC.set, hk, List.getElem?_set_ne (Ne.symm hj)]
  · intro h
    simp [HMapC.set, h]
  · intro h
    refine ⟨by simp [HMapC.set, h], ?_, ?_, ?_⟩
    · simp only [HMapC.set, h, if_true, if_pos]
      exact HMapC.get_map_update_self m km vm h
    · intro j hj
      simp only [HMapC.set, h, if_true, if_pos]
      exact HMapC.get_map_update_ne m km vm j hj
    · simp only [HMapC.set, h, if_true, if_pos]
      rw [List.map_map]
      apply List.map_congr_left
      intro p _
      by_cases hpk : p.1 = km
      · simp [Function.comp, hpk]
      · simp [Function.comp, hpk]

/-- Witness for C8 covering absent and present keys on both adapters. -/
theorem set_declines_on_absent_key_witness :
    VecC.set [1, 2] 5 9 = (false, [1, 2])
    ∧ (VecC.set [1, 2] 0 9).1 = true
    ∧ HMapC.set [(1, 10), (2, 20)] 3 9 = (false, [(1, 10), (2, 20)])
    ∧ HMapC.get (HMapC.set [(1, 10), (2, 20)] 1 9).2 1 = some 9 := by
  refine ⟨?_, ?_, ?_, ?_⟩
  · exact (set_declines_on_absent_key [1, 2] 5 9 ([] : List (Nat × Nat)) 0 0).1 (by decide)
  · exact ((set_declines_on_absent_key [1, 2] 0 9 ([] : List (Nat × Nat)) 0 0).2.1
      (by decide)).1
  · exact (set_declines_on_absent_key ([] : List Nat) 0 0
      [(1, 10), (2, 20)] 3 9).2.2.1 (by decide)
  · exact ((set_declines_on_absent_key ([] : List Nat) 0 0
      [(1, 10), (2, 20)] 1 9).2.2.2 (by decide)).2.1

/-! ## C10: store-level swap is guarded -/

/-- Adapter-level effect of a Vec `swap` on in-bounds keys. -/
theorem VecC.swap_spec {α : Type} (l : List α) (k1 k2 : Nat)
    (h1 : k1 < l.length) (h2 : k2 < l.length) :
    (VecC.swap l k1 k2)[k1]? = l[k2]?
    ∧ (VecC.swap l k1 k2)[k2]? = l[k1]?
    ∧ ∀ j, j ≠ k1 → j ≠ k2 → (VecC.swap l k1 k2)[j]? = l[j]? := by
  have hg1 : l[k1]? = some l[k1] := List.getElem?_eq_getElem h1
  have hg2 : l[k2]? = some l[k2] := List.getElem?_eq_getElem h2
  have hswap : VecC.swap l k1 k2 = (l.set k1 l[k2]).set k2 l[k1] := by
    unfold VecC.swap
    rw [if_pos ⟨h1, h2⟩, hg1, hg2]
  by_cases heq : k1 = k2
  · subst heq
    refine ⟨?_, ?_, ?_⟩
    · rw [hswap, List.getElem?_set_self (by simpa using h1), hg2]
    · rw [hswap, List.getElem?_set_self (by simpa using h1), hg1]
    · intro j hj _
      rw [hswap, List.getElem?_set_ne (Ne.symm hj), List.getElem?_set_ne (Ne.symm hj)]
  · refine ⟨?_, ?_, ?_⟩
    · rw [hswap, List.getElem?_set_ne (fun he => heq he.symm),
        List.getElem?_set_self h1, hg2]
    · rw [hswap, List.getElem?_set_self (by simpa using h2), hg1]
    · intro j hj1 hj2
      rw [hswap, List.getElem?_set_ne (Ne.symm hj2), List.getElem?_set_ne (Ne.symm hj1)]

/-- C10: store-level `swap(k1, k2)` succeeds exactly when both keys exist;
on success it exchanges the two values (leaving every other slot and the
selection unchanged), and if either key is absent it returns `KeyNotFound`
and leaves the whole store unchanged. -/
theorem swap_guarded {α : Type} (s : VecStore α) (k1 k2 : Nat) :
    (((s.swap k1 k2).1 = Except.ok ())
      ↔ ((VecC.get s.items k1).isSome = true ∧ (VecC.get s.items k2).isSome = true))
    ∧ (k1 < s.items.length → k2 < s.items.length →
        ((s.swap k1 k2).2.items)[k1]? = (s.items)[k2]?
        ∧ ((s.swap k1 k2).2.items)[k2]? = (s.items)[k1]?
        ∧ (∀ j, j ≠ k1 → j ≠ k2 → ((s.swap k1 k2).2.items)[j]? = (s.items)[j]?)
        ∧ (s.swap k1 k2).2.selected_key = s.selected_key)
    ∧ (¬ ((VecC.get s.items k1).isSome = true ∧ (VecC.get s.items k2).isSome = true) →
        s.swap k1 k2 = (Except.error CollectionError.keyNotFound, s)) := by
  by_cases hc : (VecC.get s.items k1).isSome = true ∧ (VecC.get s.items k2).isSome = true
  · have hsw : s.swap k1 k2
        = (Except.ok (), { s with items := VecC.swap s.items k1 k2 }) := by
      unfold VecStore.swap VecStore.contains_key
      rw [if_pos (by simp [hc.1, hc.2])]
    refine ⟨by simp [hsw, hc.1, hc.2], ?_, fun hn => absurd hc hn⟩
    intro h1 h2
    have hspec := VecC.swap_spec s.items k1 k2 h1 h2
    exact ⟨by rw [hsw]; exact hspec.1, by rw [hsw]; exact hspec.2.1,
      fun j hj1 hj2 => by rw [hsw]; exact hspec.2.2 j hj1 hj2, by rw [hsw]⟩
  · have hsw : s.swap k1 k2 = (Except.error CollectionError.keyNotFound, s) := by
      unfold VecStore.swap VecStore.contains_key
      rw [if_neg (by simpa [Bool.and_eq_true] using hc)]
    refine ⟨⟨fun h => ?_, fun h => absurd h hc⟩, ?_, fun _ => hsw⟩
    · rw [hsw] at h
      exact absurd h (by simp)
    · intro h1 h2
      exact absurd ⟨VecC.isSome_get_iff.mpr h1, VecC.isSome_get_iff.mpr h2⟩ hc

/-- Witness for C10: a successful swap and a rejected one. -/
theorem swap_guarded_witness :
    ((VecStore.new [1, 2, 3]).swap 0 2).1 = Except.ok ()
    ∧ (((VecStore.new [1, 2, 3]).swap 0 2).2.items)[0]? = some 3
    ∧ (VecStore.new [1, 2, 3]).swap 0 5
        = (Except.error CollectionError.keyNotFound, VecStore.new [1, 2, 3]) := by
  refine ⟨?_, ?_, ?_⟩
  · exact (swap_guarded (VecStore.new [1, 2, 3]) 0 2).1.mpr (by decide)
  · exact (((swap_guarded (VecStore.new [1, 2, 3]) 0 2).2.1
      (by decide) (by decide)).1).trans (by decide)
  · exact (swap_guarded (VecStore.new [1, 2, 3]) 0 5).2.2 (by decide)

/-! ## C5: ring-buffer push -/

/-- C5: pushing 6 values into an initially empty capacity-5 ring buffer
leaves `len = 5` with logical index 0 holding the second pushed value (the
first was overwritten); a 7th push overwrites the physical slot that held
logical index 0 after the 6th push.  In general, pushing while full writes
to physical slot `(start + len) % capacity`, advances `start` by one modulo
capacity, and leaves `len` (and the rest of the structure) unchanged. -/
theorem ring_buffer_push_behaviour {α : Type} (v1 v2 v3 v4 v5 v6 v7 : α)
    (b : CircularBuffer α) (v : α) :
    (let b6 := ((((((CircularBuffer.new 5).push v1).push v2).push
        v3).push v4).push v5).push v6
     b6.len = 5 ∧ b6.get 0 = some v2
       ∧ ((b6.push v7).data)[(b6.start + 0) % b6.data.length]? = some v7
       ∧ (b6.push v7).len = 5)
    ∧ (0 < b.capacity → b.len = b.capacity → b.data.length = b.capacity →
        b.push v = { b with
          data := b.data.set ((b.start + b.len) % b.capacity) v,
          start := (b.start + 1) % b.capacity }) := by
  constructor
  · refine ⟨?_, ?_, ?_, ?_⟩ <;>
      simp [CircularBuffer.new, CircularBuffer.push, CircularBuffer.get,
        CircularBuffer.real_index]
  · intro hcap hlen hdata
    have hnlt : ¬ b.data.length < b.capacity := by omega
    have hwi : (b.start + b.len) % b.capacity < b.data.length := by
      rw [hdata]
      exact Nat.mod_lt _ hcap
    simp only [CircularBuffer.push, hnlt, if_false, hwi, if_true, if_pos]

/-- Witness for C5's general full-buffer push law at a concrete buffer. -/
theorem ring_buffer_push_behaviour_witness :
    (CircularBuffer.mk [1, 2, 3] 3 0 3).push 9 = CircularBuffer.mk [9, 2, 3] 3 1 3 := by
  have h := (ring_buffer_push_behaviour 0 0 0 0 0 0 0 (CircularBuffer.mk [1, 2, 3] 3 0 3) 9).2
    (by decide) (by decide) (by decide)
  exact h.trans (by decide)

/-! ## C6: ring-buffer remove -/

/-- Reading the rotation of a list through modular index arithmetic: for
`s ≤ l.length`, the sequence `l[(s+0) % n]?, ..., l[(s+(n-1)) % n]?` is the
rotation of `l` by `s`. -/
theorem rot_getElem {α : Type} (l : List α) (s : Nat) (hs : s ≤ l.length) :
    (List.range l.length).map (fun i => l[(s + i) % l.length]?)
      = (l.drop s ++ l.take s).map some := by
  apply List.ext_getElem?
  intro j
  rw [List.getElem?_map, List.getElem?_map]
  by_cases hj : j < l.length
  · rw [List.getElem?_range hj]
    by_cases hj2 : j < l.length - s
    · rw [List.getElem?_append_left (by simp only [List.length_drop]; omega)]
      rw [List.getElem?_drop]
      have hlt : s + j < l.length := by omega
      simp only [Option.map_some']
      rw [Nat.mod_eq_of_lt hlt, List.getElem?_eq_getElem hlt]
      rfl
    · rw [List.getElem?_append_right (by simp only [List.length_drop]; omega)]
      simp only [List.length_drop, Option.map_some']
      have hmod : (s + j) % l.length = s + j - l.length := by
        rw [Nat.mod_eq_sub_mod (by omega), Nat.mod_eq_of_lt (by omega)]
      have hidx : j - (l.length - s) = s + j - l.length := by omega
      rw [hmod, List.getElem?_take, if_pos (by omega), hidx]
      have hlt2 : s + j - l.length < l.length := by omega
      rw [List.getElem?_eq_getElem hlt2]
      rfl
  · have hlhs : (List.range l.length)[j]? = none := by
      rw [List.getElem?_eq_none]
      simpa using Nat.le_of_not_lt hj
    have hrhs : (l.drop s ++ l.take s)[j]? = none := by
      rw [List.getElem?_eq_none]
      simp only [List.length_append, List.length_drop, List.length_take]
      omega
    rw [hlhs, hrhs]
    rfl

/-- Erasing below the drop point: dropping one position less after the
erasure recovers the original suffix. -/
theorem eraseIdx_drop_of_lt {α : Type} (l : List α) (p s : Nat) (hp : p < s) :
    (l.eraseIdx p).drop (s - 1) = l.drop s := by
  apply List.ext_getElem?
  intro j
  rw [List.getElem?_drop, List.getElem?_drop, List.getElem?_eraseIdx]
  rw [if_neg (by omega)]
  congr 1
  omega

/-- Erasing below the take point commutes with taking one position less. -/
theorem eraseIdx_take_of_lt {α : Type} (l : List α) (p s : Nat) (hp : p < s) :
    (l.eraseIdx p).take (s - 1) = (l.take s).eraseIdx p := by
  apply List.ext_getElem?
  intro j
  simp only [List.getElem?_take, List.getElem?_eraseIdx]
  split_ifs <;> first | rfl | omega

/-- Erasing at or above the drop point commutes with dropping. -/
theorem eraseIdx_drop_of_ge {α : Type} (l : List α) (p s : Nat) (hp : s ≤ p) :
    (l.eraseIdx p).drop s = (l.drop s).eraseIdx (p - s) := by
  apply List.ext_getElem?
  intro j
  simp only [List.getElem?_drop, List.getElem?_eraseIdx]
  split_ifs <;> first | rfl | omega

/-- Erasing at or above the take point leaves the prefix unchanged. -/
theorem eraseIdx_take_of_ge {α : Type} (l : List α) (p s : Nat) (hp : s ≤ p) :
    (l.eraseIdx p).take s = l.take s := by
  apply List.ext_getElem?
  intro j
  simp only [List.getElem?_take, List.getElem?_eraseIdx]
  split_ifs <;> first | rfl | omega

/-- Lemma: `map` commutes with `eraseIdx`. -/
theorem map_eraseIdx_comm {α β : Type} (f : α → β) (l : List α) (k : Nat) :
    (l.map f).eraseIdx k = (l.eraseIdx k).map f := by
  induction l generalizing k with
  | nil => rfl
  | cons a t ih =>
    cases k with
    | zero => rfl
    | succ k => simp only [List.map_cons, List.eraseIdx_cons_succ, ih]

/-- Under the structural invariant, the logical contents of the buffer are
the rotation of the backing vector by `start`. -/
theorem CircularBuffer.logicalSeq_rot {α : Type} (b : CircularBuffer α)
    (hlen : b.data.length = b.len) (hs : b.start ≤ b.data.length) :
    b.logicalSeq = (b.data.drop b.start ++ b.data.take b.start).map some := by
  unfold CircularBuffer.logicalSeq
  have h1 : ∀ i ∈ List.range b.len,
      b.get i = b.data[(b.start + i) % b.data.length]? := by
    intro i hi
    rw [List.mem_range] at hi
    unfold CircularBuffer.get CircularBuffer.real_index
    rw [if_neg (by omega)]
    rfl
  rw [List.map_congr_left h1, ← hlen]
  exact rot_getElem b.data b.start hs

/-- C6 counterexample: the buffer built by pushing 0..10 into an empty
capacity-6 buffer, then remove(0), pop, pop — all public operations — has
`start = 5` beyond its 3-element backing vector; its logical contents are
[9, 7, 8], but remove(1) leaves logical contents [8, 9] instead of the
order-preserving deletion [9, 8]. -/
theorem ring_buffer_remove_cx :
    (((((((((((((((CircularBuffer.new 6).push 0).push 1).push 2).push 3).push
          4).push 5).push 6).push 7).push 8).push 9).push
          10).remove 0).2.pop).2.pop).2
      = CircularBuffer.mk [7, 8, 9] 6 5 3
    ∧ ((CircularBuffer.mk [7, 8, 9] 6 5 3).remove 1).2.logicalSeq
        ≠ ((CircularBuffer.mk [7, 8, 9] 6 5 3).logicalSeq).eraseIdx 1 := by
  decide

/-- C6 (amended): for every circular buffer whose backing vector matches
its logical length and whose `start` offset has not drifted past the
backing vector (`start ≤ data.length` — `pop` on certain reachable buffers
can violate this, see the counterexample), `remove(k)` with `k < len`
returns the value at physical index `(start + k) % data.length`, physically
removes that slot, decrements `start` exactly when the removed physical
index was below it, decrements `len`, and the resulting logical sequence is
the old one with position `k` deleted and all other elements in order;
`remove(k)` with `k ≥ len` returns `None` and changes nothing. -/
theorem ring_buffer_remove_spec {α : Type} (b : CircularBuffer α) (k : Nat)
    (hlen : b.data.length = b.len) (hs : b.start ≤ b.data.length) :
    (k < b.len →
      (b.remove k).1 = b.data[(b.start + k) % b.data.length]?
      ∧ (b.remove k).2.data = b.data.eraseIdx ((b.start + k) % b.data.length)
      ∧ (b.remove k).2.start
          = (if (b.start + k) % b.data.length < b.start then b.start - 1 else b.start)
      ∧ (b.remove k).2.len = b.len - 1
      ∧ (b.remove k).2.logicalSeq = b.logicalSeq.eraseIdx k)
    ∧ (b.len ≤ k → b.remove k = (none, b)) := by
  constructor
  · intro hk
    have hn : 0 < b.data.length := by omega
    have hp : (b.start + k) % b.data.length < b.data.length := Nat.mod_lt _ hn
    have hrem : b.remove k
        = (b.data[(b.start + k) % b.data.length]?,
           CircularBuffer.mk (b.data.eraseIdx ((b.start + k) % b.data.length))
             b.capacity
             (if (b.start + k) % b.data.length < b.start then b.start - 1 else b.start)
             (b.len - 1)) := by
      unfold CircularBuffer.remove CircularBuffer.real_index
      rw [if_neg (by omega), if_neg (by omega)]
    refine ⟨by rw [hrem], by rw [hrem], by rw [hrem], by rw [hrem], ?_⟩
    have hlen2 : (b.data.eraseIdx ((b.start + k) % b.data.length)).length = b.len - 1 := by
      rw [List.length_eraseIdx_of_lt hp]
      omega
    rw [hrem]
    have hsle : (if (b.start + k) % b.data.length < b.start then b.start - 1 else b.start)
        ≤ (b.data.eraseIdx ((b.start + k) % b.data.length)).length := by
      rw [List.length_eraseIdx_of_lt hp]
      by_cases hc : (b.start + k) % b.data.length < b.start
      · rw [if_pos hc]
        omega
      · rw [if_neg hc]
        omega
    have hrot := CircularBuffer.logicalSeq_rot
      (CircularBuffer.mk (b.data.eraseIdx ((b.start + k) % b.data.length)) b.capacity
        (if (b.start + k) % b.data.length < b.start then b.start - 1 else b.start)
        (b.len - 1)) hlen2 hsle
    rw [hrot, CircularBuffer.logicalSeq_rot b hlen hs, map_eraseIdx_comm]
    by_cases hw : b.start + k < b.data.length
    · -- no wraparound: the physical index is start + k, at or above start
      have hpe : (b.start + k) % b.data.length = b.start + k := Nat.mod_eq_of_lt hw
      have hcond : ¬ ((b.start + k) % b.data.length < b.start) := by
        rw [hpe]
        omega
      rw [if_neg hcond]
      simp only [hpe]
      rw [eraseIdx_drop_of_ge b.data (b.start + k) b.start (by omega)]
      rw [eraseIdx_take_of_ge b.data (b.start + k) b.start (by omega)]
      rw [List.eraseIdx_append_of_lt_length (by simp only [List.length_drop]; omega)]
      have hidx : b.start + k - b.start = k := by omega
      rw [hidx]
    · -- wraparound: the physical index is start + k - length, below start
      have hw2 : b.data.length ≤ b.start + k := by omega
      have hpe : (b.start + k) % b.data.length = b.start + k - b.data.length := by
        rw [Nat.mod_eq_sub_mod hw2, Nat.mod_eq_of_lt (by omega)]
      have hcond : (b.start + k) % b.data.length < b.start := by
        rw [hpe]
        omega
      rw [if_pos hcond]
      rw [eraseIdx_drop_of_lt b.data _ b.start hcond]
      rw [eraseIdx_take_of_lt b.data _ b.start hcond]
      rw [List.eraseIdx_append_of_length_le (by simp only [List.length_drop]; omega)]
      have hidx : k - (b.data.drop b.start).length = (b.start + k) % b.data.length := by
        simp only [List.length_drop]
        rw [hpe]
        omega
      rw [hidx]
  · intro hk
    unfold CircularBuffer.remove
    rw [if_pos (by omega)]

/-- Witness for C6 (amended): a wrapped-around in-range buffer and an
out-of-range removal. -/
theorem ring_buffer_remove_spec_witness :
    ((CircularBuffer.mk [10, 20, 30] 5 1 3).remove 2).2.logicalSeq
      = ((CircularBuffer.mk [10, 20, 30] 5 1 3).logicalSeq).eraseIdx 2
    ∧ (CircularBuffer.mk [10, 20, 30] 5 1 3).remove 3
        = (none, CircularBuffer.mk [10, 20, 30] 5 1 3) := by
  constructor
  · exact ((ring_buffer_remove_spec (CircularBuffer.mk [10, 20, 30] 5 1 3) 2
      (by decide) (by decide)).1 (by decide)).2.2.2.2
  · exact (ring_buffer_remove_spec (CircularBuffer.mk [10, 20, 30] 5 1 3) 3
      (by decide) (by decide)).2 (by decide)

end DxCollection
